import Mathlib

/-!
Shallow embedding of the matrix-free Neo-Hookean tangent operator
(`NeoHookOperator` in `include/mf_nh_operator.h`) of the
`large-strain-matrix-free` repository.

Numbers are modelled as rationals (`ℚ`): the source works in `double`
(template parameter `number`); all the guarded comparisons and clamps of
the source carry over literally.  SIMD batches (`VectorizedArray<number>`)
are modelled as lists of lane scalars.  Global vectors (`Vector<number>`)
are lists of rationals indexed by degree-of-freedom number.  The deal.II
`FEEvaluation` / `MatrixFree` machinery is an external collaborator of the
repository: the per-cell finite-element contribution is carried as an
explicit function parameter (`cellKernel`), and its documented contract
(constrained rows receive no cell contribution) enters theorems as a
hypothesis.  Debug assertions (`Assert(..., Exc...)`) are modelled as
`Except` error results.
-/

namespace NeoHook

/-- Error conditions of the source: `ExcNotInitialized`,
`ExcNotImplemented`, `ExcInternalError`. -/
inductive OpError where
  | notInitialized
  | notImplemented
  | internalError
deriving DecidableEq, Repr

/-- The part of a deal.II `MatrixFree<dim,number>` object that
`NeoHookOperator` queries: number of cell batches (`n_macro_cells()`),
quadrature points per cell (`FEEvaluation::n_q_points` derived from it),
the constrained-DOF list (`get_constrained_dofs()`) and the vector
partition size (`get_vector_partitioner()->size()`). -/
structure MFData where
  n_macro_cells : ℕ
  n_q_points : ℕ
  constrained_dofs : List ℕ
  vector_size : ℕ
deriving DecidableEq, Repr

/-- The guard threshold `1e-10` of `do_operation_on_cell`
(`mf_nh_operator.h:393`). -/
def jxw_threshold : ℚ := 1 / 10 ^ 10

/-- One SIMD lane of the quadrature-weight rescale computation of
`do_operation_on_cell` (`mf_nh_operator.h:390-394`):
`JxW_scale[i] = phi_reference.JxW(q)[i]`, then
`if (std::abs(JxW_current[i]) > 1e-10) JxW_scale[i] *= 1./JxW_current[i]`. -/
def jxw_scale_lane (jxw_reference jxw_current : ℚ) : ℚ :=
  if jxw_threshold < |jxw_current| then jxw_reference * (1 / jxw_current)
  else jxw_reference

/-- The full SIMD batch of rescale factors at one quadrature point: the
lane loop `for i < VectorizedArray<number>::n_array_elements`. -/
def jxw_scale (jxw_reference jxw_current : List ℚ) : List ℚ :=
  List.zipWith jxw_scale_lane jxw_reference jxw_current

/-- What `do_operation_on_cell` submits at one quadrature point
(`mf_nh_operator.h:400-411`), per lane: the material-tangent contribution
`jc_part * JxW_scale` (submitted as symmetric gradient) and the
geometric-stress contribution `geo * JxW_scale` (submitted as gradient).
The tensors `jc_part` and `geo` come from the external material model and
kinematics; what the claim is about is the common scalar factor, so each
is carried as its per-lane scalar magnitude. -/
structure QPointSubmission where
  material_part : List ℚ
  geometric_part : List ℚ
deriving DecidableEq, Repr

/-- The two rescaled submissions of `do_operation_on_cell` at one
quadrature point: both multiply by the same `JxW_scale` batch. -/
def qpoint_submit (jc_part geo : List ℚ)
    (jxw_reference jxw_current : List ℚ) : QPointSubmission :=
  let scale := jxw_scale jxw_reference jxw_current
  ⟨List.zipWith (· * ·) jc_part scale, List.zipWith (· * ·) geo scale⟩

/-- Operator state (`NeoHookOperator` data members,
`mf_nh_operator.h:89-99`): the two matrix-free contexts, the non-owning
displacement reference (modelled as an identifying tag), the injected
material (likewise a tag), the two diagonal vectors and the availability
flag.  `shared_ptr`s that may be null are `Option`s. -/
structure OpState where
  data_current : Option MFData
  data_reference : Option MFData
  displacement : Option ℕ
  material : Option ℕ
  diagonal_entries : Option (List ℚ)
  inverse_diagonal_entries : Option (List ℚ)
  diagonal_is_available : Bool
deriving DecidableEq, Repr

/-- The constructor (`mf_nh_operator.h:104-109`): all pointers null /
unset, `diagonal_is_available(false)`. -/
def mkOperator : OpState :=
  ⟨none, none, none, none, none, none, false⟩

/-- `clear()` (`mf_nh_operator.h:145-154`): resets the two contexts, the
availability flag and both diagonal matrices; touches nothing else. -/
def clear (s : OpState) : OpState :=
  { s with data_current := none
           data_reference := none
           diagonal_is_available := false
           diagonal_entries := none
           inverse_diagonal_entries := none }

/-- `initialize(data_current_, data_reference_, displacement_)`
(`mf_nh_operator.h:158-168`); named `initializeOp` because `initialize`
is reserved in Lean. -/
def initializeOp (s : OpState) (dc dr : MFData) (disp : ℕ) : OpState :=
  { s with data_current := some dc
           data_reference := some dr
           displacement := some disp }

/-- `set_material(material_)` (`mf_nh_operator.h:172-177`). -/
def set_material (s : OpState) (m : ℕ) : OpState :=
  { s with material := some m }

/-- Element-wise accumulation of a cell contribution into `dst`
(`distribute_local_to_global(dst)` adds into the destination). -/
def addInto (dst contrib : List ℚ) : List ℚ :=
  List.zipWith (· + ·) dst contrib

/-- `local_apply_cell(data, dst, src, cell_range)`
(`mf_nh_operator.h:248-281`): asserts once, before the cell loop, that
`phi_current.n_q_points == phi_reference.n_q_points`
(`ExcInternalError`), then for each cell of the range evaluates the
finite-element kernel on `src` (and the frozen displacement) and
scatter-adds the result into `dst`.  The finite-element work of one cell
batch — `read_dof_values`, `do_operation_on_cell`,
`distribute_local_to_global` — lives in the external deal.II evaluators;
it is carried here as `cellKernel c src`, the global-vector increment
contributed by cell batch `c`. -/
def local_apply_cell (mfCur mfRef : MFData)
    (cellKernel : ℕ → List ℚ → List ℚ)
    (dst src : List ℚ) : Except OpError (List ℚ) :=
  if mfCur.n_q_points ≠ mfRef.n_q_points then .error .internalError
  else .ok ((List.range mfCur.n_macro_cells).foldl
      (fun d c => addInto d (cellKernel c src)) dst)

/-- The constraint step of `vmult_add` (`mf_nh_operator.h:240-243`):
`for i < constrained_dofs.size(): dst(constrained_dofs[i]) += src(constrained_dofs[i])`. -/
def constraint_step (cs : List ℕ) (dst src : List ℚ) : List ℚ :=
  cs.foldl (fun d k => d.set k (d.getD k 0 + src.getD k 0)) dst

/-- `vmult_add(dst, src)` (`mf_nh_operator.h:213-244`): asserts
`data_current->n_macro_cells() == data_reference->n_macro_cells()`
(`ExcInternalError`), runs `local_apply_cell` over the whole cell range
`[0, n_macro_cells)`, then applies the constraint step with
`data_current->get_constrained_dofs()`. -/
def vmult_add (mfCur mfRef : MFData)
    (cellKernel : ℕ → List ℚ → List ℚ)
    (dst src : List ℚ) : Except OpError (List ℚ) :=
  if mfCur.n_macro_cells ≠ mfRef.n_macro_cells then .error .internalError
  else
    (local_apply_cell mfCur mfRef cellKernel dst src).map
      (fun d => constraint_step mfCur.constrained_dofs d src)

/-- `vmult(dst, src)` (`mf_nh_operator.h:181-188`): `dst = 0;` then
`vmult_add(dst, src)`. -/
def vmult (mfCur mfRef : MFData)
    (cellKernel : ℕ → List ℚ → List ℚ)
    (dst src : List ℚ) : Except OpError (List ℚ) :=
  vmult_add mfCur mfRef cellKernel (List.replicate dst.length 0) src

/-- `Tvmult(dst, src)` (`mf_nh_operator.h:192-199`): `dst = 0;` then
`vmult_add(dst, src)`. -/
def Tvmult (mfCur mfRef : MFData)
    (cellKernel : ℕ → List ℚ → List ℚ)
    (dst src : List ℚ) : Except OpError (List ℚ) :=
  vmult_add mfCur mfRef cellKernel (List.replicate dst.length 0) src

/-- `Tvmult_add(dst, src)` (`mf_nh_operator.h:203-209`): delegates to
`vmult_add(dst, src)`. -/
def Tvmult_add (mfCur mfRef : MFData)
    (cellKernel : ℕ → List ℚ → List ℚ)
    (dst src : List ℚ) : Except OpError (List ℚ) :=
  vmult_add mfCur mfRef cellKernel dst src

/-- `precondition_Jacobi(dst, src, omega)` (`mf_nh_operator.h:113-123`):
`Assert(inverse_diagonal_entries.get() && inverse_diagonal_entries->m() > 0,
ExcNotInitialized())`; then `inverse_diagonal_entries->vmult(dst, src)`
(element-wise product) followed by `dst *= omega`. -/
def precondition_Jacobi (inv_diag : Option (List ℚ))
    (src : List ℚ) (omega : ℚ) : Except OpError (List ℚ) :=
  match inv_diag with
  | none => .error .notInitialized
  | some d =>
    if 0 < d.length then
      .ok ((List.zipWith (· * ·) d src).map (fun x => x * omega))
    else .error .notInitialized

/-- `sqrt(numeric_limits<double>::epsilon())`: the double-precision
machine epsilon is `2^-52`, whose square root is exactly `2^-26`. -/
def sqrt_eps : ℚ := 1 / 2 ^ 26

/-- The inverse-diagonal clamp of `compute_diagonal`
(`mf_nh_operator.h:455-459`): entries whose magnitude exceeds
`sqrt(machine epsilon)` are inverted, all others are set to `1`. -/
def invert_entry (x : ℚ) : ℚ :=
  if sqrt_eps < |x| then 1 / x else 1

/-- The constrained-entry fix-up of `compute_diagonal`
(`mf_nh_operator.h:444-450`): `diagonal_vector(constrained_dofs[i]) = 1`. -/
def set_constrained_one (cs : List ℕ) (v : List ℚ) : List ℚ :=
  cs.foldl (fun d k => d.set k 1) v

/-- The output of `compute_diagonal`: the stored diagonal, its clamped
inverse, and the availability flag. -/
structure DiagResult where
  diag : List ℚ
  inv : List ℚ
  available : Bool
deriving DecidableEq, Repr

/-- `compute_diagonal()` (`mf_nh_operator.h:422-465`) after the cell-wise
probing: `probed` is the global vector scattered by
`local_diagonal_cell` (external finite-element machinery).  Then the
constrained entries are forced to `1`, the inverse diagonal is built with
the clamp, and only then is the flag set. -/
def compute_diagonal (probed : List ℚ) (cs : List ℕ) : DiagResult :=
  let dv := set_constrained_one cs probed
  let iv := dv.map invert_entry
  ⟨dv, iv, true⟩

/-- `compute_diagonal()` as a state transformer: overwrites both diagonal
matrices and sets `diagonal_is_available = true` as the final step. -/
def compute_diagonal_state (s : OpState) (probed : List ℚ) (cs : List ℕ) :
    OpState :=
  let r := compute_diagonal probed cs
  { s with diagonal_entries := some r.diag
           inverse_diagonal_entries := some r.inv
           diagonal_is_available := r.available }

/-- `el(row, col)` (`mf_nh_operator.h:469-478`):
`Assert(row == col, ExcNotImplemented())`;
`Assert(diagonal_is_available == true, ExcNotInitialized())`;
`return diagonal_entries->get_vector()(row)`. -/
def el (s : OpState) (row col : ℕ) : Except OpError ℚ :=
  if row ≠ col then .error .notImplemented
  else if s.diagonal_is_available then
    .ok ((s.diagonal_entries.getD []).getD row 0)
  else .error .notInitialized

end NeoHook

namespace NeoHook

theorem getD_zipWith (f : ℚ → ℚ → ℚ) (a b : List ℚ) (i : ℕ)
    (h1 : i < a.length) (h2 : i < b.length) :
    (List.zipWith f a b).getD i 0 = f (a.getD i 0) (b.getD i 0) := by
  have hl : i < (List.zipWith f a b).length := by simp [h1, h2]
  rw [List.getD_eq_getElem _ _ hl, List.getD_eq_getElem _ _ h1,
    List.getD_eq_getElem _ _ h2]
  exact List.getElem_zipWith

theorem getD_map (f : ℚ → ℚ) (l : List ℚ) (i : ℕ) (h : i < l.length) :
    (l.map f).getD i 0 = f (l.getD i 0) := by
  have hl : i < (l.map f).length := by simpa using h
  rw [List.getD_eq_getElem _ _ hl, List.getD_eq_getElem _ _ h]
  exact List.getElem_map f

theorem addInto_length (dst c : List ℚ) (h : c.length = dst.length) :
    (addInto dst c).length = dst.length := by
  simp [addInto, h]

theorem addInto_getD (dst c : List ℚ) (k : ℕ) (h1 : k < dst.length)
    (h2 : k < c.length) :
    (addInto dst c).getD k 0 = dst.getD k 0 + c.getD k 0 := by
  have hl : k < (addInto dst c).length := by simp [addInto, h1, h2]
  rw [List.getD_eq_getElem _ _ hl, List.getD_eq_getElem _ _ h1,
    List.getD_eq_getElem _ _ h2]
  exact List.getElem_zipWith

theorem foldl_addInto_invariant (kernel : ℕ → List ℚ) (n k : ℕ)
    (hker_len : ∀ c, (kernel c).length = n)
    (hker_zero : ∀ c, (kernel c).getD k 0 = 0)
    (cells : List ℕ) :
    ∀ d : List ℚ, d.length = n → k < n →
      (cells.foldl (fun d c => addInto d (kernel c)) d).length = n ∧
      (cells.foldl (fun d c => addInto d (kernel c)) d).getD k 0 = d.getD k 0 := by
  induction cells with
  | nil => intro d hd hk; exact ⟨hd, rfl⟩
  | cons c cells ih =>
    intro d hd hk
    have hlen : (addInto d (kernel c)).length = n := by
      rw [addInto_length d (kernel c) (by rw [hker_len c, hd])]; exact hd
    have hval : (addInto d (kernel c)).getD k 0 = d.getD k 0 := by
      rw [addInto_getD d (kernel c) k (hd ▸ hk) ((hker_len c) ▸ hk),
        hker_zero c, add_zero]
    have := ih (addInto d (kernel c)) hlen hk
    exact ⟨this.1, by rw [List.foldl_cons, this.2, hval]⟩

theorem constraint_step_length (cs : List ℕ) (dst src : List ℚ) :
    (constraint_step cs dst src).length = dst.length := by
  induction cs generalizing dst with
  | nil => rfl
  | cons c cs ih =>
    simp only [constraint_step, List.foldl_cons]
    simp only [constraint_step] at ih
    rw [ih]; simp

theorem constraint_step_getD_not_mem (cs : List ℕ) (dst src : List ℚ)
    (k : ℕ) (hk : k ∉ cs) :
    (constraint_step cs dst src).getD k 0 = dst.getD k 0 := by
  induction cs generalizing dst with
  | nil => rfl
  | cons c cs ih =>
    have hkc : k ≠ c := fun h => hk (h ▸ List.mem_cons_self c cs)
    have hkcs : k ∉ cs := fun h => hk (List.mem_cons_of_mem c h)
    simp only [constraint_step, List.foldl_cons]
    simp only [constraint_step] at ih
    rw [ih _ hkcs]
    simp [List.getD, List.getElem?_set_ne (Ne.symm hkc)]

theorem constraint_step_getD_mem (cs : List ℕ) (dst src : List ℚ)
    (k : ℕ) (hnd : cs.Nodup) (hk : k ∈ cs) (hlen : k < dst.length) :
    (constraint_step cs dst src).getD k 0 = dst.getD k 0 + src.getD k 0 := by
  induction cs generalizing dst with
  | nil => exact absurd hk (List.not_mem_nil k)
  | cons c cs ih =>
    simp only [constraint_step, List.foldl_cons]
    simp only [constraint_step] at ih
    rcases List.mem_cons.mp hk with hkc | hkcs
    · subst hkc
      have hknot : k ∉ cs := (List.nodup_cons.mp hnd).1
      have := constraint_step_getD_not_mem cs
        (dst.set k (dst.getD k 0 + src.getD k 0)) src k hknot
      simp only [constraint_step] at this
      rw [this]
      simp [List.getD, List.getElem?_set_self, hlen]
    · have hkc : k ≠ c := by
        intro h; exact (List.nodup_cons.mp hnd).1 (h ▸ hkcs)
      have h1 : (dst.set c (dst.getD c 0 + src.getD c 0)).getD k 0 =
          dst.getD k 0 := by
        simp [List.getD, List.getElem?_set_ne (Ne.symm hkc)]
      have h2 : k < (dst.set c (dst.getD c 0 + src.getD c 0)).length := by
        simpa using hlen
      rw [ih (dst.set c (dst.getD c 0 + src.getD c 0))
        (List.nodup_cons.mp hnd).2 hkcs h2, h1]

theorem set_constrained_one_getD_not_mem (cs : List ℕ) (v : List ℚ)
    (k : ℕ) (hk : k ∉ cs) :
    (set_constrained_one cs v).getD k 0 = v.getD k 0 := by
  induction cs generalizing v with
  | nil => rfl
  | cons c cs ih =>
    have hkc : k ≠ c := fun h => hk (h ▸ List.mem_cons_self c cs)
    have hkcs : k ∉ cs := fun h => hk (List.mem_cons_of_mem c h)
    simp only [set_constrained_one, List.foldl_cons]
    simp only [set_constrained_one] at ih
    rw [ih _ hkcs]
    simp [List.getD, List.getElem?_set_ne (Ne.symm hkc)]

theorem set_constrained_one_getD_mem (cs : List ℕ) (v : List ℚ)
    (k : ℕ) (hk : k ∈ cs) (hlen : k < v.length) :
    (set_constrained_one cs v).getD k 0 = 1 := by
  induction cs generalizing v with
  | nil => exact absurd hk (List.not_mem_nil k)
  | cons c cs ih =>
    simp only [set_constrained_one, List.foldl_cons]
    simp only [set_constrained_one] at ih
    by_cases hkcs : k ∈ cs
    · exact ih (v.set c 1) hkcs (by simpa using hlen)
    · have hkc : k = c := by
        rcases List.mem_cons.mp hk with h | h
        · exact h
        · exact absurd h hkcs
      subst hkc
      have := set_constrained_one_getD_not_mem cs (v.set k 1) k hkcs
      simp only [set_constrained_one] at this
      rw [this]
      simp [List.getD, List.getElem?_set_self, hlen]

end NeoHook

namespace NeoHook

/-- C1 (counterexample): the claim says the rescale factor equals `1`
when the current weight's magnitude is at or below `1e-10`; but with
reference weight `2` and current weight `0` the source leaves the factor
at the reference weight `2`, not `1` (the guard only skips the division,
it does not reset the factor). -/
theorem jxw_rescale_claim_false :
    |(0 : ℚ)| ≤ jxw_threshold ∧ jxw_scale_lane 2 0 = 2 ∧ (2 : ℚ) ≠ 1 := by
  refine ⟨by norm_num [jxw_threshold], ?_, by norm_num⟩
  norm_num [jxw_scale_lane, jxw_threshold]

/-- C1 (amended): at every quadrature point and every SIMD lane, both the
material-tangent and the geometric-stress contributions are multiplied by
the same rescale factor, which equals the reference weight divided by the
current weight when the current weight's magnitude exceeds `1e-10`, and
equals the reference weight (the division is skipped) otherwise. -/
theorem jxw_rescale_amended (jc geo jref jcur : List ℚ) (i : ℕ)
    (hjc : i < jc.length) (hgeo : i < geo.length)
    (hr : i < jref.length) (hc : i < jcur.length) :
    (qpoint_submit jc geo jref jcur).material_part.getD i 0 =
      jc.getD i 0 * (if jxw_threshold < |jcur.getD i 0| then
        jref.getD i 0 / jcur.getD i 0 else jref.getD i 0) ∧
    (qpoint_submit jc geo jref jcur).geometric_part.getD i 0 =
      geo.getD i 0 * (if jxw_threshold < |jcur.getD i 0| then
        jref.getD i 0 / jcur.getD i 0 else jref.getD i 0) := by
  have hscale_len : i < (jxw_scale jref jcur).length := by
    simp [jxw_scale, hr, hc]
  have hscale : (jxw_scale jref jcur).getD i 0 =
      if jxw_threshold < |jcur.getD i 0| then
        jref.getD i 0 / jcur.getD i 0 else jref.getD i 0 := by
    rw [jxw_scale, getD_zipWith jxw_scale_lane jref jcur i hr hc]
    simp only [jxw_scale_lane]
    split <;> ring
  constructor
  · show (List.zipWith (· * ·) jc (jxw_scale jref jcur)).getD i 0 = _
    rw [getD_zipWith (· * ·) jc (jxw_scale jref jcur) i hjc hscale_len, hscale]
  · show (List.zipWith (· * ·) geo (jxw_scale jref jcur)).getD i 0 = _
    rw [getD_zipWith (· * ·) geo (jxw_scale jref jcur) i hgeo hscale_len, hscale]

/-- C1 (witness): the amended statement evaluated at one concrete lane
whose current weight is below the threshold. -/
theorem jxw_rescale_amended_witness :
    (qpoint_submit [3] [5] [2] [0]).material_part.getD 0 0 =
      (3 : ℚ) * (if jxw_threshold < |([(0 : ℚ)]).getD 0 0| then
        ([(2 : ℚ)]).getD 0 0 / ([(0 : ℚ)]).getD 0 0 else ([(2 : ℚ)]).getD 0 0) ∧
    (qpoint_submit [3] [5] [2] [0]).geometric_part.getD 0 0 =
      (5 : ℚ) * (if jxw_threshold < |([(0 : ℚ)]).getD 0 0| then
        ([(2 : ℚ)]).getD 0 0 / ([(0 : ℚ)]).getD 0 0 else ([(2 : ℚ)]).getD 0 0) :=
  jxw_rescale_amended [3] [5] [2] [0] 0 (by norm_num) (by norm_num)
    (by norm_num) (by norm_num)

/-- C3: `precondition_Jacobi` fails with `ExcNotInitialized` when the
inverse diagonal has not been computed; otherwise it returns `omega`
times the element-wise product of `src` with the stored inverse
diagonal. -/
theorem precondition_Jacobi_spec (inv_diag : Option (List ℚ))
    (src : List ℚ) (omega : ℚ) :
    (inv_diag = none →
      precondition_Jacobi inv_diag src omega = .error .notInitialized) ∧
    (∀ d, inv_diag = some d → 0 < d.length →
      precondition_Jacobi inv_diag src omega =
        .ok ((List.zipWith (· * ·) d src).map (fun x => omega * x))) := by
  constructor
  · intro h; subst h; rfl
  · intro d h hd; subst h
    simp only [precondition_Jacobi, if_pos hd]
    congr 1
    exact List.map_congr_left (fun x _ => mul_comm x omega)

/-- C3 (witness): with no inverse diagonal the call fails; with inverse
diagonal `[2, 4]` it scales `src = [3, 5]` by `omega = 7` element-wise. -/
theorem precondition_Jacobi_spec_witness :
    precondition_Jacobi none [3, 5] 7 = .error .notInitialized ∧
    precondition_Jacobi (some [2, 4]) [3, 5] 7 =
      .ok ((List.zipWith (· * ·) [2, 4] [3, 5]).map (fun x => (7 : ℚ) * x)) :=
  ⟨(precondition_Jacobi_spec none [3, 5] 7).1 rfl,
   (precondition_Jacobi_spec (some [2, 4]) [3, 5] 7).2 [2, 4] rfl (by norm_num)⟩

/-- C4: after `compute_diagonal`, each inverse-diagonal entry is the
reciprocal of the stored diagonal entry when the latter's magnitude
exceeds `sqrt(machine epsilon)` (`2^-26` for double), and is exactly `1`
otherwise. -/
theorem compute_diagonal_inverse_clamp (probed : List ℚ) (cs : List ℕ)
    (i : ℕ) (hi : i < (compute_diagonal probed cs).diag.length) :
    (compute_diagonal probed cs).inv.getD i 0 =
      if sqrt_eps < |(compute_diagonal probed cs).diag.getD i 0| then
        1 / (compute_diagonal probed cs).diag.getD i 0
      else 1 := by
  show ((compute_diagonal probed cs).diag.map invert_entry).getD i 0 = _
  rw [getD_map invert_entry _ i hi]
  rfl

/-- C4 (witness): a probed vector with one large and one sub-threshold
entry: the large entry is inverted, the small one is clamped to `1`. -/
theorem compute_diagonal_inverse_clamp_witness :
    (compute_diagonal [4, 1 / 2 ^ 30] []).inv.getD 1 0 =
      (if sqrt_eps < |(compute_diagonal [4, 1 / 2 ^ 30] []).diag.getD 1 0| then
        1 / (compute_diagonal [4, 1 / 2 ^ 30] []).diag.getD 1 0
      else 1) :=
  compute_diagonal_inverse_clamp [4, 1 / 2 ^ 30] [] 1 (by norm_num [compute_diagonal, set_constrained_one])

/-- C5: after `compute_diagonal`, the stored diagonal entry at every
globally constrained index equals exactly `1`, whatever the cell-wise
probing scattered there. -/
theorem compute_diagonal_constrained_one (probed : List ℚ) (cs : List ℕ)
    (k : ℕ) (hk : k ∈ cs) (hlen : k < probed.length) :
    (compute_diagonal probed cs).diag.getD k 0 = 1 :=
  set_constrained_one_getD_mem cs probed k hk hlen

/-- C5 (witness): index `0` is constrained and its probed value `42` is
replaced by `1`. -/
theorem compute_diagonal_constrained_one_witness :
    (compute_diagonal [42, 3] [0]).diag.getD 0 0 = 1 :=
  compute_diagonal_constrained_one [42, 3] [0] 0 (by norm_num) (by norm_num)

end NeoHook

namespace NeoHook

/-- C2: for every constrained index `k`, `vmult` succeeds and leaves
`dst` equal to `src` at `k`.  The hypotheses on `cellKernel` are the
documented deal.II matrix-free contract for constrained degrees of
freedom: the scatter of `distribute_local_to_global` contributes nothing
to a constrained row (the constrained-DOF list acts as identity rows),
and each cell contribution matches the global vector size; the
constrained-DOF list returned by `get_constrained_dofs()` has no
duplicates. -/
theorem vmult_constraint_identity (mfCur mfRef : MFData)
    (cellKernel : ℕ → List ℚ → List ℚ) (dst src : List ℚ) (k : ℕ)
    (hcells : mfCur.n_macro_cells = mfRef.n_macro_cells)
    (hq : mfCur.n_q_points = mfRef.n_q_points)
    (hker_len : ∀ c, (cellKernel c src).length = dst.length)
    (hker_zero : ∀ c, (cellKernel c src).getD k 0 = 0)
    (hnd : mfCur.constrained_dofs.Nodup)
    (hk : k ∈ mfCur.constrained_dofs)
    (hklen : k < dst.length) :
    ∃ out, vmult mfCur mfRef cellKernel dst src = Except.ok out ∧
      out.getD k 0 = src.getD k 0 := by
  have hbase_len : (List.replicate dst.length (0 : ℚ)).length = dst.length := by
    simp
  have hfold := foldl_addInto_invariant (fun c => cellKernel c src)
    dst.length k hker_len hker_zero (List.range mfCur.n_macro_cells)
    (List.replicate dst.length 0) hbase_len hklen
  refine ⟨constraint_step mfCur.constrained_dofs
      ((List.range mfCur.n_macro_cells).foldl
        (fun d c => addInto d (cellKernel c src))
        (List.replicate dst.length 0)) src, ?_, ?_⟩
  · simp only [vmult, vmult_add, local_apply_cell]
    rw [if_neg (by simp [hcells]), if_neg (by simp [hq])]
    rfl
  · rw [constraint_step_getD_mem mfCur.constrained_dofs _ src k hnd hk
      (by rw [hfold.1]; exact hklen), hfold.2]
    have hrep : (List.replicate dst.length (0 : ℚ)).getD k 0 = 0 := by
      rw [List.getD_eq_getElem _ _ (by simpa using hklen)]
      simp
    rw [hrep, zero_add]

/-- C2 (witness): one cell batch contributing `[0, 5]`, constrained
index `0`: the output at index `0` equals `src` there. -/
theorem vmult_constraint_identity_witness :
    ∃ out, vmult ⟨1, 2, [0], 2⟩ ⟨1, 2, [], 2⟩ (fun _ _ => [0, 5])
        [9, 9] [3, 4] = Except.ok out ∧
      out.getD 0 0 = ([3, 4] : List ℚ).getD 0 0 :=
  vmult_constraint_identity ⟨1, 2, [0], 2⟩ ⟨1, 2, [], 2⟩
    (fun _ _ => [0, 5]) [9, 9] [3, 4] 0 rfl rfl (fun _ => rfl)
    (fun _ => rfl) (by decide) (by decide) (by decide)

/-- C6: the transpose variants invoke the identical forward action:
`Tvmult` agrees with `vmult` and `Tvmult_add` with `vmult_add` on every
destination and input. -/
theorem transpose_variants_identical (mfCur mfRef : MFData)
    (cellKernel : ℕ → List ℚ → List ℚ) (dst src : List ℚ) :
    Tvmult mfCur mfRef cellKernel dst src =
      vmult mfCur mfRef cellKernel dst src ∧
    Tvmult_add mfCur mfRef cellKernel dst src =
      vmult_add mfCur mfRef cellKernel dst src :=
  ⟨rfl, rfl⟩

/-- C7: `el(row, col)` fails with `ExcNotImplemented` whenever
`row ≠ col`; on the diagonal it fails with `ExcNotInitialized` unless the
availability flag is set, and when available returns the stored
(non-inverted) diagonal entry at `row`. -/
theorem el_spec (s : OpState) (row col : ℕ) :
    (row ≠ col → el s row col = .error .notImplemented) ∧
    (row = col → s.diagonal_is_available = false →
      el s row col = .error .notInitialized) ∧
    (row = col → s.diagonal_is_available = true → ∀ d,
      s.diagonal_entries = some d → el s row col = .ok (d.getD row 0)) := by
  refine ⟨?_, ?_, ?_⟩
  · intro h; simp [el, h]
  · intro h hav; simp [el, h, hav]
  · intro h hav d hd; simp [el, h, hav, hd]

/-- C7 (witness): with stored diagonal `[5, 7]`: the diagonal request
returns the stored entry, an off-diagonal request is not implemented,
and an unavailable diagonal is not initialized. -/
theorem el_spec_witness :
    el ⟨none, none, none, none, some [5, 7], none, true⟩ 1 1 =
      .ok (([5, 7] : List ℚ).getD 1 0) ∧
    el ⟨none, none, none, none, some [5, 7], none, true⟩ 0 2 =
      .error .notImplemented ∧
    el ⟨none, none, none, none, some [5, 7], none, false⟩ 1 1 =
      .error .notInitialized :=
  ⟨(el_spec ⟨none, none, none, none, some [5, 7], none, true⟩ 1 1).2.2
      rfl rfl [5, 7] rfl,
   (el_spec ⟨none, none, none, none, some [5, 7], none, true⟩ 0 2).1
      (by decide),
   (el_spec ⟨none, none, none, none, some [5, 7], none, false⟩ 1 1).2.1
      rfl rfl⟩

/-- C8: under the precondition that the current- and
reference-configuration contexts report equal cell-batch counts and equal
quadrature-point counts, every operator action — `vmult_add`, `vmult`,
`Tvmult`, `Tvmult_add` — completes without reaching an assertion branch
(the checks sit once per call, before the cell loop, in `vmult_add` and
`local_apply_cell`). -/
theorem action_counts_precondition (mfCur mfRef : MFData)
    (cellKernel : ℕ → List ℚ → List ℚ) (dst src : List ℚ)
    (hcells : mfCur.n_macro_cells = mfRef.n_macro_cells)
    (hq : mfCur.n_q_points = mfRef.n_q_points) :
    (∃ o, vmult_add mfCur mfRef cellKernel dst src = Except.ok o) ∧
    (∃ o, vmult mfCur mfRef cellKernel dst src = Except.ok o) ∧
    (∃ o, Tvmult mfCur mfRef cellKernel dst src = Except.ok o) ∧
    (∃ o, Tvmult_add mfCur mfRef cellKernel dst src = Except.ok o) := by
  have key : ∀ d : List ℚ,
      ∃ o, vmult_add mfCur mfRef cellKernel d src = Except.ok o := by
    intro d
    refine ⟨constraint_step mfCur.constrained_dofs
      ((List.range mfCur.n_macro_cells).foldl
        (fun x c => addInto x (cellKernel c src)) d) src, ?_⟩
    simp only [vmult_add, local_apply_cell]
    rw [if_neg (by simp [hcells]), if_neg (by simp [hq])]
    rfl
  exact ⟨key dst, key _, key _, key dst⟩

/-- C8 (witness): equal counts on a concrete pair of contexts: all four
actions return a result. -/
theorem action_counts_precondition_witness :
    (∃ o, vmult_add ⟨1, 4, [], 2⟩ ⟨1, 4, [0], 2⟩ (fun _ _ => [1, 2])
        [0, 0] [3, 4] = Except.ok o) ∧
    (∃ o, vmult ⟨1, 4, [], 2⟩ ⟨1, 4, [0], 2⟩ (fun _ _ => [1, 2])
        [0, 0] [3, 4] = Except.ok o) ∧
    (∃ o, Tvmult ⟨1, 4, [], 2⟩ ⟨1, 4, [0], 2⟩ (fun _ _ => [1, 2])
        [0, 0] [3, 4] = Except.ok o) ∧
    (∃ o, Tvmult_add ⟨1, 4, [], 2⟩ ⟨1, 4, [0], 2⟩ (fun _ _ => [1, 2])
        [0, 0] [3, 4] = Except.ok o) :=
  action_counts_precondition ⟨1, 4, [], 2⟩ ⟨1, 4, [0], 2⟩
    (fun _ _ => [1, 2]) [0, 0] [3, 4] rfl rfl

/-- C9: the availability flag is `false` at construction and after every
`clear()`; `initializeOp` and `set_material` never change it; and
`compute_diagonal_state` sets it `true` while storing exactly the
fully post-processed vectors — the probed diagonal after the
constrained-entry fix-up, and its clamped inverse. -/
theorem diagonal_availability_lifecycle :
    mkOperator.diagonal_is_available = false ∧
    (∀ s : OpState, (clear s).diagonal_is_available = false) ∧
    (∀ (s : OpState) (dc dr : MFData) (disp : ℕ),
      (initializeOp s dc dr disp).diagonal_is_available =
        s.diagonal_is_available) ∧
    (∀ (s : OpState) (m : ℕ),
      (set_material s m).diagonal_is_available = s.diagonal_is_available) ∧
    (∀ (s : OpState) (probed : List ℚ) (cs : List ℕ),
      (compute_diagonal_state s probed cs).diagonal_is_available = true ∧
      (compute_diagonal_state s probed cs).diagonal_entries =
        some (set_constrained_one cs probed) ∧
      (compute_diagonal_state s probed cs).inverse_diagonal_entries =
        some ((set_constrained_one cs probed).map invert_entry)) :=
  ⟨rfl, fun _ => rfl, fun _ _ _ _ => rfl, fun _ _ => rfl,
   fun _ _ _ => ⟨rfl, rfl, rfl⟩⟩

/-- C10: `clear()` resets exactly the two bound contexts, both diagonal
matrices and the availability flag; the injected material and the
displacement reference survive, so after `clear()` followed by a fresh
`initializeOp` the previously set material is still bound. -/
theorem clear_frame (s : OpState) (dc dr : MFData) (disp : ℕ) :
    (clear s).material = s.material ∧
    (clear s).displacement = s.displacement ∧
    (clear s).data_current = none ∧
    (clear s).data_reference = none ∧
    (clear s).diagonal_entries = none ∧
    (clear s).inverse_diagonal_entries = none ∧
    (clear s).diagonal_is_available = false ∧
    (initializeOp (clear s) dc dr disp).material = s.material :=
  ⟨rfl, rfl, rfl, rfl, rfl, rfl, rfl, rfl⟩

end NeoHook
